import Mathlib

/-!
Verification development for the pqm4 device-session layer (interface.py).

Bytes and characters are modelled as natural-number code points
(61 is the equals sign, 10 is newline, 35 is the hash mark, and so on).

The byte-oriented transport (pyserial) is modelled as a list of events
`List (Option Nat)`: `some b` is an arriving byte, `none` is a timeout
expiry (pyserial read_until returns the partial data collected so far when
its timeout elapses, without raising).  A stream that runs out of entries
delivers nothing forever (every further read is an immediate timeout with
no data).

The character-oriented transport (the ChipWhisperer target) is modelled as
a list of poll results `List (List Nat)`: target.read() returns whatever
string is available, possibly empty; once exhausted every poll returns the
empty string.  That transport has no timeout primitive at all.
-/

namespace Pqm4

/-- Model of pyserial Serial.read_until(term): collect arriving bytes until
the terminator byte is seen (returned inclusively) or a timeout event is
hit (return the partial data collected so far).  Returns the data together
with the unconsumed remainder of the event stream. -/
def readUntil (term : Nat) : List (Option Nat) → List Nat × List (Option Nat)
  | [] => ([], [])
  | none :: rest => ([], rest)
  | some b :: rest =>
    if b = term then ([b], rest)
    else (b :: (readUntil term rest).1, (readUntil term rest).2)

/-- Model of the regex fullmatch of SerialCommsPlatform.start_pat, the
bytes pattern anything-then-at-least-four-equals-then-newline with DOTALL:
a byte string fully matches exactly when it ends with four equals signs
followed by a newline (the leading dot-star absorbs everything else,
including extra equals signs). -/
def startFullmatch (s : List Nat) : Bool :=
  s.drop (s.length - 5) == [61, 61, 61, 61, 10]

/-- Possible outcomes of SerialCommsPlatform.run: the propagated flashing
failure (subprocess.check_call raising on a non-zero exit), the exception
raised as Timout-waiting-for-start, the exception raised as
Start-does-not-match, or the decoded transcript. -/
inductive SerialResult where
  | flashFailure
  | timeoutStart
  | startMismatch
  | transcript (t : List Nat)
  deriving DecidableEq

/-- Decode one UTF-8 sequence starting at lead byte b with following bytes
rest, mirroring CPython utf-8 decoding used by bytes.decode: returns the
decoded scalar value (or none when the sequence is invalid or truncated)
together with the number of continuation bytes consumed beyond the lead
byte.  With the ignore error handler an invalid sequence produces no
output and decoding resumes after the consumed bytes. -/
def utf8Step (b : Nat) (rest : List Nat) : Option Nat × Nat :=
  if b < 128 then (some b, 0)
  else if 194 ≤ b ∧ b ≤ 223 then
    match rest with
    | c1 :: _ =>
      if 128 ≤ c1 ∧ c1 ≤ 191 then (some ((b - 192) * 64 + (c1 - 128)), 1)
      else (none, 0)
    | [] => (none, 0)
  else if 224 ≤ b ∧ b ≤ 239 then
    match rest with
    | c1 :: rest1 =>
      if 128 ≤ c1 ∧ c1 ≤ 191 ∧ (b = 224 → 160 ≤ c1) ∧ (b = 237 → c1 ≤ 159) then
        match rest1 with
        | c2 :: _ =>
          if 128 ≤ c2 ∧ c2 ≤ 191 then
            (some ((b - 224) * 4096 + (c1 - 128) * 64 + (c2 - 128)), 2)
          else (none, 1)
        | [] => (none, 1)
      else (none, 0)
    | [] => (none, 0)
  else if 240 ≤ b ∧ b ≤ 244 then
    match rest with
    | c1 :: rest1 =>
      if 128 ≤ c1 ∧ c1 ≤ 191 ∧ (b = 240 → 144 ≤ c1) ∧ (b = 244 → c1 ≤ 143) then
        match rest1 with
        | c2 :: rest2 =>
          if 128 ≤ c2 ∧ c2 ≤ 191 then
            match rest2 with
            | c3 :: _ =>
              if 128 ≤ c3 ∧ c3 ≤ 191 then
                (some ((b - 240) * 262144 + (c1 - 128) * 4096 + (c2 - 128) * 64 + (c3 - 128)), 3)
              else (none, 2)
            | [] => (none, 2)
          else (none, 1)
        | [] => (none, 1)
      else (none, 0)
    | [] => (none, 0)
  else (none, 0)

/-- Fueled driver for UTF-8 decoding with the ignore error handler; the
fuel only needs to exceed the list length (each step consumes at least the
lead byte). -/
def decodeUtf8Go : Nat → List Nat → List Nat
  | 0, _ => []
  | _ + 1, [] => []
  | fuel + 1, b :: rest =>
    match utf8Step b rest with
    | (some c, k) => c :: decodeUtf8Go fuel (rest.drop k)
    | (none, k) => decodeUtf8Go fuel (rest.drop k)

/-- Model of bytes.decode with utf-8 codec and the ignore error handler,
as used on line 226 of interface.py: invalid sequences are silently
dropped and decoding never raises. -/
def decodeUtf8Ignore (s : List Nat) : List Nat :=
  decodeUtf8Go s.length s

/-- Model of the streaming loop of SerialCommsPlatform.run (lines
222-225): while the output buffer is empty or its final byte is not the
hash mark, append the next read_until-hash chunk.  The loop has no
timeout escape of its own, so it is driven by fuel; exhausted fuel
(result none) means the loop was still running after that many
iterations.  The call counter records how many read_until calls the loop
issued. -/
def streamLoop : Nat → List Nat → List (Option Nat) → Nat → Option (List Nat × Nat)
  | 0, _, _, _ => none
  | fuel + 1, output, s, calls =>
    if output.getLast? = some 35 then some (output, calls)
    else streamLoop fuel (output ++ (readUntil 35 s).1) (readUntil 35 s).2 (calls + 1)

/-- Model of SerialCommsPlatform.run (lines 210-226), instrumented with
the number of read_until calls issued and whether reset_input_buffer was
invoked.  flashOk models the exit status of the external flashing tool
(false means check_call raised, which propagates before any transport
interaction).  The first read_until-equals must return exactly one equals
byte, otherwise the Timout-waiting-for-start exception is raised; the rest
of the start line must fullmatch the start pattern, otherwise the
Start-does-not-match exception is raised; then the streaming loop runs and
the buffer minus its final hash byte is decoded with the utf-8 codec and
the ignore error handler. -/
def serialRun (flashOk : Bool) (fuel : Nat) (s : List (Option Nat)) :
    Option SerialResult × Nat × Bool :=
  if flashOk then
    if (readUntil 61 s).1 = [61] then
      if startFullmatch (readUntil 10 (readUntil 61 s).2).1 then
        match streamLoop fuel [] (readUntil 10 (readUntil 61 s).2).2 0 with
        | some q =>
          (some (SerialResult.transcript (decodeUtf8Ignore q.1.dropLast)), 2 + q.2, true)
        | none => (none, 2 + fuel, true)
      else (some SerialResult.startMismatch, 2, true)
    else (some SerialResult.timeoutStart, 1, true)
  else (some SerialResult.flashFailure, 0, false)

/-- Result component of serialRun. -/
def serialRunR (flashOk : Bool) (fuel : Nat) (s : List (Option Nat)) : Option SerialResult :=
  (serialRun flashOk fuel s).1

/-- Model of one target.read() poll of the ChipWhisperer transport: return
the next available chunk (possibly empty) and the remaining polls; an
exhausted transport yields empty strings forever. -/
def cwRead : List (List Nat) → List Nat × List (List Nat)
  | [] => ([], [])
  | r :: rest => (r, rest)

/-- Model of re.match end position for the DOTALL patterns of the
ChipWhisperer reader (anything-then-marker): with greedy matching the
match, when it exists, ends at the largest position e such that the first
e characters end with the literal marker. -/
def lastMatchEnd (marker s : List Nat) : Option Nat :=
  ((List.range (s.length + 1)).filter
    (fun e => (s.take e).drop ((s.take e).length - marker.length) == marker)).getLast?

/-- Literal tail of ChipWhisperer.start_pat: four equals signs then a
newline. -/
def cwStartMarker : List Nat := [61, 61, 61, 61, 10]

/-- Literal tail of ChipWhisperer.end_pat: a hash mark then a newline. -/
def cwEndMarker : List Nat := [35, 10]

/-- Model of the first loop of ChipWhisperer.run (lines 307-309): poll the
target until the accumulated text contains an equals sign.  The transport
has no timeout primitive, so the loop can only be cut off by fuel; none
means it was still polling. -/
def cwAwaitEq : Nat → List Nat → List (List Nat) → Option (List Nat × List (List Nat))
  | 0, _, _ => none
  | fuel + 1, data, reads =>
    if 61 ∈ data then some (data, reads)
    else cwAwaitEq fuel (data ++ (cwRead reads).1) (cwRead reads).2

/-- Model of the match-await loops of ChipWhisperer.run (lines 311-314 and
318-321): poll once, append, test the pattern, repeat until it matches.
Returns the match end position, the accumulated text and the remaining
polls. -/
def cwAwaitMatch (marker : List Nat) : Nat → List Nat → List (List Nat) →
    Option (Nat × List Nat × List (List Nat))
  | 0, _, _ => none
  | fuel + 1, data, reads =>
    match lastMatchEnd marker (data ++ (cwRead reads).1) with
    | some e => some (e, data ++ (cwRead reads).1, (cwRead reads).2)
    | none => cwAwaitMatch marker fuel (data ++ (cwRead reads).1) (cwRead reads).2

/-- Model of ChipWhisperer.run (lines 302-323) after a successful flash:
await an equals sign, await the start pattern, keep the text up to the
match end (line 316, data truncated at match.end()), await the end
pattern, and return the text up to two characters before that match end.
The function has no failure outcome at all; none only means the fuel ran
out while some loop was still polling. -/
def cwRun (fuel : Nat) (reads : List (List Nat)) : Option (List Nat) :=
  match cwAwaitEq fuel [] reads with
  | none => none
  | some (d1, r1) =>
    match cwAwaitMatch cwStartMarker fuel d1 r1 with
    | none => none
    | some (e1, d2, r2) =>
      match cwAwaitMatch cwEndMarker fuel (d2.take e1) r2 with
      | none => none
      | some (e2, d3, _) => some (d3.take (e2 - 2))

/-- Steps of ChipWhisperer.flash (lines 293-300). -/
inductive FlashStep where
  | openP
  | findP
  | eraseP
  | programP
  | closeP
  deriving DecidableEq

/-- Model of ChipWhisperer.flash (lines 293-300): the programmer calls run
in straight-line order with no try/finally, so the first raising step
propagates immediately and later calls are skipped.  fails says which
steps raise.  Returns the outcome together with whether prog.close() was
reached. -/
def cwFlash (fails : FlashStep → Bool) : Except FlashStep Unit × Bool :=
  if fails FlashStep.openP then (Except.error FlashStep.openP, false)
  else if fails FlashStep.findP then (Except.error FlashStep.findP, false)
  else if fails FlashStep.eraseP then (Except.error FlashStep.eraseP, false)
  else if fails FlashStep.programP then (Except.error FlashStep.programP, false)
  else if fails FlashStep.closeP then (Except.error FlashStep.closeP, true)
  else (Except.ok (), true)

end Pqm4

namespace Pqm4

/-- A read_until that sees clean bytes none of which is the terminator,
then the terminator, consumes exactly through the terminator and returns
it inclusively. -/
theorem ruSkipTo (t : Nat) (a : List Nat) (rest : List (Option Nat))
    (h : ∀ x ∈ a, x ≠ t) :
    readUntil t (List.map some a ++ some t :: rest) = (a ++ [t], rest) := by
  induction a with
  | nil => simp [readUntil]
  | cons x xs ih =>
    have hx : x ≠ t := h x (by simp)
    have ih2 := ih (fun y hy => h y (by simp [hy]))
    simp [readUntil, if_neg hx, ih2]

/-- When the terminator occurs somewhere in a fully arrived byte sequence,
read_until returns the prefix before the first terminator plus the
terminator itself. -/
theorem ruTake (t : Nat) (q : List Nat) (h : t ∈ q) :
    (readUntil t (List.map some q)).1 = q.takeWhile (fun x => x != t) ++ [t] := by
  induction q with
  | nil => cases h
  | cons x xs ih =>
    by_cases hx : x = t
    · subst hx
      simp [readUntil, List.takeWhile_cons]
    · have hmem : t ∈ xs := by
        rcases List.mem_cons.mp h with h1 | h1
        · exact absurd h1.symm hx
        · exact h1
      have hxb : (x != t) = true := bne_iff_ne.mpr hx
      simp only [List.map_cons, readUntil, if_neg hx, List.takeWhile_cons, hxb,
        if_pos rfl, cond_true]
      rw [ih hmem]
      simp

/-- Every byte in a read_until chunk arrived on the stream. -/
theorem ruChunkMem (t : Nat) (s : List (Option Nat)) (x : Nat)
    (h : x ∈ (readUntil t s).1) : some x ∈ s := by
  induction s with
  | nil => simp [readUntil] at h
  | cons o rest ih =>
    cases o with
    | none => simp [readUntil] at h
    | some b =>
      by_cases hb : b = t
      · simp [readUntil, hb] at h
        simp [h, hb]
      · simp only [readUntil, if_neg hb, List.mem_cons] at h
        rcases h with h | h
        · simp [h]
        · exact List.mem_cons_of_mem _ (ih h)

/-- The unconsumed remainder of a read_until call is made of stream
events that were already there. -/
theorem ruRestMem (t : Nat) (s : List (Option Nat)) (x : Option Nat)
    (h : x ∈ (readUntil t s).2) : x ∈ s := by
  induction s with
  | nil => simp [readUntil] at h
  | cons o rest ih =>
    cases o with
    | none =>
      simp only [readUntil] at h
      exact List.mem_cons_of_mem _ h
    | some b =>
      by_cases hb : b = t
      · simp only [readUntil, if_pos hb] at h
        exact List.mem_cons_of_mem _ h
      · simp only [readUntil, if_neg hb] at h
        exact List.mem_cons_of_mem _ (ih h)

/-- A read_until chunk contains the terminator at most as its final byte:
the part before the last byte is terminator-free. -/
theorem ruDropLast (t : Nat) (s : List (Option Nat)) :
    t ∉ ((readUntil t s).1).dropLast := by
  induction s with
  | nil => simp [readUntil]
  | cons o rest ih =>
    cases o with
    | none => simp [readUntil]
    | some b =>
      by_cases hb : b = t
      · simp [readUntil, hb]
      · simp only [readUntil, if_neg hb]
        rcases hrec : (readUntil t rest).1 with _ | ⟨y, ys⟩
        · simp
        · rw [hrec] at ih
          rw [show (b :: y :: ys).dropLast = b :: (y :: ys).dropLast from rfl]
          intro hmem
          rcases List.mem_cons.mp hmem with h1 | h1
          · exact hb h1.symm
          · exact ih h1

/-- Appending the sentinel value to a list does not change the
takeWhile-not-sentinel prefix. -/
theorem twConcat (t : Nat) (l : List Nat) :
    (l ++ [t]).takeWhile (fun x => x != t) = l.takeWhile (fun x => x != t) := by
  induction l with
  | nil => simp
  | cons x xs ih =>
    by_cases hx : x = t
    · subst hx
      simp [List.takeWhile_cons]
    · have hxb : (x != t) = true := bne_iff_ne.mpr hx
      simp [List.takeWhile_cons, hxb, ih]

/-- A list that avoids the sentinel value is its own
takeWhile-not-sentinel prefix. -/
theorem twAll (t : Nat) (l : List Nat) (h : t ∉ l) :
    l.takeWhile (fun x => x != t) = l := by
  induction l with
  | nil => simp
  | cons x xs ih =>
    have hx : (x != t) = true := bne_iff_ne.mpr (fun hc => h (by simp [hc]))
    have ihx := ih (fun hc => h (List.mem_cons_of_mem _ hc))
    simp [List.takeWhile_cons, hx, ihx]

/-- Members of a takeWhile prefix are members of the list. -/
theorem twMem (p : Nat → Bool) (l : List Nat) (x : Nat)
    (h : x ∈ l.takeWhile p) : x ∈ l := by
  induction l with
  | nil => simp at h
  | cons y ys ih =>
    rw [List.takeWhile_cons] at h
    by_cases hy : p y
    · rw [if_pos hy] at h
      rcases List.mem_cons.mp h with h1 | h1
      · simp [h1]
      · exact List.mem_cons_of_mem _ (ih h1)
    · rw [if_neg hy] at h
      simp at h

/-- A line of at least four equals signs followed by a newline fully
matches the serial start pattern. -/
theorem fmRep (m : Nat) (hm : 4 ≤ m) :
    startFullmatch (List.replicate m 61 ++ [10]) = true := by
  have hsplit : List.replicate m 61 = List.replicate (m - 4) 61 ++ List.replicate 4 61 := by
    rw [← List.replicate_add]
    congr 1
    omega
  unfold startFullmatch
  simp only [beq_iff_eq]
  rw [hsplit, List.append_assoc]
  have hlen : (List.replicate (m - 4) 61 ++ (List.replicate 4 61 ++ [10])).length = m + 1 := by
    simp
    omega
  rw [hlen]
  have harith : m + 1 - 5 = (List.replicate (m - 4) 61).length := by
    simp only [List.length_replicate]
    omega
  rw [harith, List.drop_left]
  rfl

/-- A list whose dropLast avoids a value and whose last entry is not that
value avoids it entirely. -/
theorem notMemFull (t : Nat) (l : List Nat) (h1 : t ∉ l.dropLast)
    (h2 : l.getLast? ≠ some t) : t ∉ l := by
  induction l with
  | nil => simp
  | cons x xs ih =>
    cases xs with
    | nil =>
      have hx : ([x] : List Nat).getLast? = some x := rfl
      rw [hx] at h2
      intro hmem
      rcases List.mem_cons.mp hmem with h1 | h1
      · exact h2 (by rw [h1])
      · simp at h1
    | cons y ys =>
      rw [show (x :: y :: ys).dropLast = x :: (y :: ys).dropLast from rfl] at h1
      rw [List.getLast?_cons_cons] at h2
      intro hmem
      rcases List.mem_cons.mp hmem with hc | hc
      · exact h1 (by simp [hc])
      · exact ih (fun hc2 => h1 (List.mem_cons_of_mem _ hc2)) h2 hc

end Pqm4

namespace Pqm4

/-- A some-valued getLast is a member of the list. -/
theorem getLastSomeMem (l : List Nat) (a : Nat) (h : l.getLast? = some a) : a ∈ l := by
  induction l with
  | nil => simp at h
  | cons x xs ih =>
    cases xs with
    | nil =>
      have hx : ([x] : List Nat).getLast? = some x := rfl
      rw [hx] at h
      simp only [Option.some.injEq] at h
      simp [h]
    | cons y ys =>
      rw [List.getLast?_cons_cons] at h
      exact List.mem_cons_of_mem _ (ih h)

/-- If no hash byte ever arrives on the remaining stream and the buffer
does not already end in a hash, the streaming loop never terminates: every
fuel bound is exhausted. -/
theorem slNone (fuel : Nat) : ∀ (out : List Nat) (s : List (Option Nat)) (calls : Nat),
    (∀ x ∈ s, x ≠ some 35) → out.getLast? ≠ some 35 →
    streamLoop fuel out s calls = none := by
  induction fuel with
  | zero => intro out s calls hs hout; rfl
  | succ f ih =>
    intro out s calls hs hout
    simp only [streamLoop]
    rw [if_neg hout]
    apply ih
    · intro x hx
      exact hs x (ruRestMem 35 s x hx)
    · by_cases hc : (readUntil 35 s).1 = []
      · rw [hc, List.append_nil]
        exact hout
      · rw [List.getLast?_append_of_ne_nil _ hc]
        intro hcontra
        exact hs (some 35) (ruChunkMem 35 s 35 (getLastSomeMem _ _ hcontra)) rfl

/-- The streaming loop preserves the invariant that the output buffer
contains the hash byte at most in final position. -/
theorem slInv (fuel : Nat) : ∀ (out : List Nat) (s : List (Option Nat)) (calls : Nat)
    (q : List Nat × Nat), streamLoop fuel out s calls = some q →
    35 ∉ out.dropLast → 35 ∉ q.1.dropLast := by
  induction fuel with
  | zero => intro out s calls q h hout; simp [streamLoop] at h
  | succ f ih =>
    intro out s calls q h hout
    simp only [streamLoop] at h
    by_cases hl : out.getLast? = some 35
    · rw [if_pos hl] at h
      simp only [Option.some.injEq] at h
      rw [← h]
      exact hout
    · rw [if_neg hl] at h
      apply ih _ _ _ _ h
      have hout2 : 35 ∉ out := notMemFull 35 out hout hl
      by_cases hc : (readUntil 35 s).1 = []
      · rw [hc, List.append_nil]
        exact hout
      · rw [List.dropLast_append_of_ne_nil out hc]
        intro hmem
        rcases List.mem_append.mp hmem with h1 | h1
        · exact hout2 h1
        · exact ruDropLast 35 s h1

/-- ASCII bytes decode to themselves in one step consuming no
continuation bytes. -/
theorem utf8StepAscii (b : Nat) (rest : List Nat) (h : b < 128) :
    utf8Step b rest = (some b, 0) := by
  simp [utf8Step, h]

/-- Every scalar produced by a decoding step is either the ASCII lead
byte itself or at least 128. -/
theorem utf8StepHigh (b : Nat) (rest : List Nat) (c : Nat) (k : Nat)
    (h : utf8Step b rest = (some c, k)) : (c = b ∧ b < 128) ∨ 128 ≤ c := by
  unfold utf8Step at h
  repeat' split at h
  all_goals simp only [Prod.mk.injEq, Option.some.injEq, reduceCtorEq, false_and] at h
  all_goals omega

/-- A pure ASCII byte string decodes to itself (given enough fuel). -/
theorem decodeGoAscii (s : List Nat) : ∀ (fuel : Nat), s.length ≤ fuel →
    (∀ x ∈ s, x < 128) → decodeUtf8Go fuel s = s := by
  induction s with
  | nil => intro fuel hf ha; cases fuel <;> rfl
  | cons b rest ih =>
    intro fuel hf ha
    obtain ⟨f, rfl⟩ : ∃ f, fuel = f + 1 := ⟨fuel - 1, by simp at hf; omega⟩
    simp only [decodeUtf8Go]
    rw [utf8StepAscii b rest (ha b (by simp))]
    show b :: decodeUtf8Go f (rest.drop 0) = b :: rest
    rw [List.drop_zero, ih f (by simp at hf; omega) (fun x hx => ha x (by simp [hx]))]

/-- The ignore-handler decode of a pure ASCII byte string is the string
itself. -/
theorem decodeAscii (s : List Nat) (h : ∀ x ∈ s, x < 128) : decodeUtf8Ignore s = s :=
  decodeGoAscii s s.length le_rfl h

/-- Decoding distributes over a pure ASCII prefix. -/
theorem decodeGoPre (a : List Nat) : ∀ (f : Nat) (r : List Nat), (∀ x ∈ a, x < 128) →
    decodeUtf8Go (a.length + f) (a ++ r) = a ++ decodeUtf8Go f r := by
  induction a with
  | nil => intro f r ha; simp
  | cons x xs ih =>
    intro f r ha
    have h1 : (x :: xs).length + f = (xs.length + f) + 1 := by
      simp only [List.length_cons]
      omega
    rw [h1]
    simp only [List.cons_append, decodeUtf8Go, List.append_eq]
    rw [utf8StepAscii x (xs ++ r) (ha x (by simp))]
    show x :: decodeUtf8Go (xs.length + f) ((xs ++ r).drop 0) = x :: (xs ++ decodeUtf8Go f r)
    rw [List.drop_zero, ih f r (fun y hy => ha y (by simp [hy]))]

/-- Decoding a hash-free byte string yields a hash-free scalar string:
the only way to produce the hash scalar is the literal ASCII hash byte,
and multi-byte sequences decode to scalars of at least 128. -/
theorem decodeGoNoHash (fuel : Nat) : ∀ (s : List Nat), 35 ∉ s →
    35 ∉ decodeUtf8Go fuel s := by
  induction fuel with
  | zero => intro s h; simp [decodeUtf8Go]
  | succ f ih =>
    intro s h
    cases s with
    | nil => simp [decodeUtf8Go]
    | cons b rest =>
      rcases hstep : utf8Step b rest with ⟨oc, k⟩
      cases oc with
      | none =>
        simp only [decodeUtf8Go, hstep]
        exact ih _ (fun hc => h (List.mem_cons_of_mem _ (List.mem_of_mem_drop hc)))
      | some c =>
        simp only [decodeUtf8Go, hstep]
        intro hmem
        rcases List.mem_cons.mp hmem with h1 | h1
        · rcases utf8StepHigh b rest c k hstep with ⟨hcb, hlt⟩ | hge
          · exact h (by rw [h1, hcb]; exact List.mem_cons_self b rest)
          · omega
        · exact ih _ (fun hc => h (List.mem_cons_of_mem _ (List.mem_of_mem_drop hc))) h1

/-- The ignore-handler decode of a hash-free byte string contains no hash
scalar. -/
theorem decodeNoHash (s : List Nat) (h : 35 ∉ s) : 35 ∉ decodeUtf8Ignore s :=
  decodeGoNoHash s.length s h

/-- If no equals sign is in the buffer and none ever arrives on any poll,
the ChipWhisperer synchronization loop polls forever: every fuel bound is
exhausted. -/
theorem cwAwaitEqNone (fuel : Nat) : ∀ (data : List Nat) (reads : List (List Nat)),
    61 ∉ data → (∀ r ∈ reads, 61 ∉ r) → cwAwaitEq fuel data reads = none := by
  induction fuel with
  | zero => intro data reads h1 h2; rfl
  | succ f ih =>
    intro data reads h1 h2
    simp only [cwAwaitEq]
    rw [if_neg h1]
    cases reads with
    | nil =>
      apply ih
      · simp only [cwRead, List.append_nil]
        exact h1
      · intro r hr
        simp only [cwRead] at hr
        simp at hr
    | cons q qs =>
      apply ih
      · simp only [cwRead]
        intro hmem
        rcases List.mem_append.mp hmem with hA | hA
        · exact h1 hA
        · exact h2 q (by simp) hA
      · intro r hr
        simp only [cwRead] at hr
        exact h2 r (List.mem_cons_of_mem _ hr)

end Pqm4

namespace Pqm4

theorem serialRunFramed (m f : Nat) (payload : List Nat) (hm : 4 ≤ m) :
    serialRunR true (f + 1 + 1)
        (List.map some (List.replicate (m + 1) 61 ++ 10 :: (payload ++ [35]))) =
      some (SerialResult.transcript
        (decodeUtf8Ignore (payload.takeWhile (fun x => x != 35)))) := by
  have h0 : List.map some (List.replicate (m + 1) 61 ++ 10 :: (payload ++ [35]))
      = some 61 :: (List.map some (List.replicate m 61) ++ some 10 ::
          List.map some (payload ++ [35])) := by
    simp [List.replicate_succ]
  have h1 : readUntil 61 (some 61 :: (List.map some (List.replicate m 61) ++ some 10 ::
        List.map some (payload ++ [35])))
      = ([61], List.map some (List.replicate m 61) ++ some 10 ::
          List.map some (payload ++ [35])) := by
    simp [readUntil]
  have h2 : readUntil 10 (List.map some (List.replicate m 61) ++ some 10 ::
        List.map some (payload ++ [35]))
      = (List.replicate m 61 ++ [10], List.map some (payload ++ [35])) :=
    ruSkipTo 10 (List.replicate m 61) (List.map some (payload ++ [35]))
      (fun x hx => by
        have h61 := List.eq_of_mem_replicate hx
        omega)
  have h3 := fmRep m hm
  have hchunk : (readUntil 35 (List.map some (payload ++ [35]))).1
      = payload.takeWhile (fun x => x != 35) ++ [35] := by
    rw [ruTake 35 (payload ++ [35]) (by simp), twConcat]
  have h4 : streamLoop (f + 1 + 1) [] (List.map some (payload ++ [35])) 0
      = some (payload.takeWhile (fun x => x != 35) ++ [35], 1) := by
    simp only [streamLoop]
    rw [if_neg (show ¬((([] : List Nat).getLast?) = some 35) by simp)]
    simp only [List.nil_append]
    rw [hchunk]
    simp [List.getLast?_concat]
  unfold serialRunR serialRun
  rw [h0, h1]
  dsimp only
  rw [h2]
  dsimp only
  rw [h3, h4]
  simp [List.dropLast_concat]

theorem serialNoStop (m fuel : Nat) (payload : List Nat) (hm : 4 ≤ m) (hn : 35 ∉ payload) :
    serialRunR true fuel (List.map some (List.replicate (m + 1) 61 ++ 10 :: payload)) = none := by
  have h0 : List.map some (List.replicate (m + 1) 61 ++ 10 :: payload)
      = some 61 :: (List.map some (List.replicate m 61) ++ some 10 ::
          List.map some payload) := by
    simp [List.replicate_succ]
  have h1 : readUntil 61 (some 61 :: (List.map some (List.replicate m 61) ++ some 10 ::
        List.map some payload))
      = ([61], List.map some (List.replicate m 61) ++ some 10 ::
          List.map some payload) := by
    simp [readUntil]
  have h2 : readUntil 10 (List.map some (List.replicate m 61) ++ some 10 ::
        List.map some payload)
      = (List.replicate m 61 ++ [10], List.map some payload) :=
    ruSkipTo 10 (List.replicate m 61) (List.map some payload)
      (fun x hx => by
        have h61 := List.eq_of_mem_replicate hx
        omega)
  have h3 := fmRep m hm
  have h4 : streamLoop fuel [] (List.map some payload) 0 = none := by
    apply slNone
    · intro x hx
      rcases List.mem_map.mp hx with ⟨b, hb, rfl⟩
      intro hc
      rw [Option.some.injEq] at hc
      exact hn (hc ▸ hb)
    · simp
  unfold serialRunR serialRun
  rw [h0, h1]
  dsimp only
  rw [h2]
  dsimp only
  rw [h3, h4]
  simp

end Pqm4

namespace Pqm4

/-- Helper inversion: a successful transcript from the byte-oriented run
comes from a terminating streaming loop, and is the decode of that loop
output minus its final byte. -/
theorem serialRunTranscript (fuel : Nat) (s : List (Option Nat)) (t : List Nat)
    (h : serialRunR true fuel s = some (SerialResult.transcript t)) :
    ∃ q, streamLoop fuel [] (readUntil 10 (readUntil 61 s).2).2 0 = some q ∧
      t = decodeUtf8Ignore q.1.dropLast := by
  unfold serialRunR serialRun at h
  rw [if_pos rfl] at h
  by_cases h61 : (readUntil 61 s).1 = [61]
  · rw [if_pos h61] at h
    by_cases hsm : startFullmatch (readUntil 10 (readUntil 61 s).2).1 = true
    · rw [if_pos hsm] at h
      rcases hq : streamLoop fuel [] (readUntil 10 (readUntil 61 s).2).2 0 with _ | q
      · rw [hq] at h
        simp at h
      · rw [hq] at h
        simp only [Option.some.injEq, SerialResult.transcript.injEq] at h
        exact ⟨q, rfl, h.symm⟩
    · rw [if_neg hsm] at h
      simp at h
  · rw [if_neg h61] at h
    simp at h

end Pqm4

namespace Pqm4

/-- C1 (amended): for a stream that begins directly with the start marker
(a run of at least five equals signs, then a newline), followed by an
ASCII payload free of hash bytes and then the stop byte, run returns
exactly the payload; with boot-noise bytes before the marker, run instead
raises the timeout-waiting-for-start failure (see the counterexample). -/
theorem c1_returns_payload (k fuel : Nat) (payload : List Nat)
    (hk : 5 ≤ k) (hf : 2 ≤ fuel) (ha : ∀ x ∈ payload, x < 128) (hn : 35 ∉ payload) :
    serialRunR true fuel
        (List.map some (List.replicate k 61 ++ 10 :: (payload ++ [35]))) =
      some (SerialResult.transcript payload) := by
  obtain ⟨m, rfl⟩ : ∃ m, k = m + 1 := ⟨k - 1, by omega⟩
  obtain ⟨f, rfl⟩ : ∃ f, fuel = f + 1 + 1 := ⟨fuel - 2, by omega⟩
  rw [serialRunFramed m f payload (by omega)]
  rw [twAll 35 payload hn, decodeAscii payload ha]

/-- C1 witness: scenario A without the boot noise, start bytes of ten
equals signs and newline then the benchmark line then hash, returns the
benchmark line. -/
theorem c1_witness :
    serialRunR true 2 (List.map some (List.replicate 10 61 ++ 10 ::
        ([98, 101, 110, 99, 104, 58, 32, 49, 50, 51, 52, 32, 99, 121, 99, 108, 101, 115, 10]
          ++ [35]))) =
      some (SerialResult.transcript
        [98, 101, 110, 99, 104, 58, 32, 49, 50, 51, 52, 32, 99, 121, 99, 108, 101, 115, 10]) :=
  c1_returns_payload 10 2
    [98, 101, 110, 99, 104, 58, 32, 49, 50, 51, 52, 32, 99, 121, 99, 108, 101, 115, 10]
    (by decide) (by decide) (by decide) (by decide)

/-- C1 counterexample: on the exact scenario A bytes, boot noise then ten
equals signs and newline then the benchmark payload then hash, run raises
the timeout-waiting-for-start failure instead of returning the payload:
the first read_until-equals returns the noise plus the equals sign, which
is not the single equals byte the code requires. -/
theorem c1_counterexample :
    serialRunR true 5 (List.map some
        ([110, 111, 105, 115, 101] ++ List.replicate 10 61 ++ 10 ::
          ([98, 101, 110, 99, 104, 58, 32, 49, 50, 51, 52, 32, 99, 121, 99, 108, 101, 115, 10]
            ++ [35]))) = some SerialResult.timeoutStart ∧
      some SerialResult.timeoutStart ≠ some (SerialResult.transcript
        [98, 101, 110, 99, 104, 58, 32, 49, 50, 51, 52, 32, 99, 121, 99, 108, 101, 115, 10]) := by
  constructor
  · decide
  · decide

/-- C2: code bug in ChipWhisperer.run: the comment on line 315 says the
start pattern is removed, but line 316 keeps data up to the match end
(rather than from the match end), so the returned transcript retains the
boot noise and the start delimiter line while the payload read together
with the start line is discarded: polls noise-plus-marker, empty, then
payload with stop marker produce the transcript noise-plus-marker-plus-
payload. -/
theorem c2_transcript_keeps_noise :
    cwRun 10 [[110, 111, 105, 115, 101, 61, 61, 61, 61, 10], [],
        [112, 97, 121, 108, 111, 97, 100, 35, 10]]
      = some [110, 111, 105, 115, 101, 61, 61, 61, 61, 10, 112, 97, 121, 108, 111, 97, 100] := by
  decide

/-- C3 (amended): the byte-oriented reader stops at the first hash byte
received, because each read_until chunk ends at the first hash and the
loop exits as soon as the buffer ends with a hash; a payload with an
interior hash is therefore truncated at that hash rather than captured in
full. -/
theorem c3_truncates_at_first_hash (k fuel : Nat) (payload : List Nat)
    (hk : 5 ≤ k) (hf : 2 ≤ fuel) (ha : ∀ x ∈ payload, x < 128) (hmem : 35 ∈ payload) :
    serialRunR true fuel
        (List.map some (List.replicate k 61 ++ 10 :: (payload ++ [35]))) =
      some (SerialResult.transcript (payload.takeWhile (fun x => x != 35))) := by
  obtain ⟨m, rfl⟩ : ∃ m, k = m + 1 := ⟨k - 1, by omega⟩
  obtain ⟨f, rfl⟩ : ∃ f, fuel = f + 1 + 1 := ⟨fuel - 2, by omega⟩
  rw [serialRunFramed m f payload (by omega)]
  rw [decodeAscii _ (fun x hx => ha x (twMem _ payload x hx))]

/-- C3 witness: payload a=b#c newline with trailing hash is truncated to
a=b. -/
theorem c3_witness :
    serialRunR true 2 (List.map some (List.replicate 5 61 ++ 10 ::
        ([97, 61, 98, 35, 99, 10] ++ [35]))) =
      some (SerialResult.transcript [97, 61, 98]) := by
  rw [c3_truncates_at_first_hash 5 2 [97, 61, 98, 35, 99, 10]
    (by decide) (by decide) (by decide) (by decide)]
  decide

/-- C3 counterexample: on payload a=b#c newline followed by the trailing
stop hash, the byte-oriented run returns a=b, not the full payload the
claim promises. -/
theorem c3_counterexample :
    serialRunR true 5 (List.map some (List.replicate 5 61 ++ 10 ::
        ([97, 61, 98, 35, 99, 10] ++ [35]))) =
        some (SerialResult.transcript [97, 61, 98]) ∧
      serialRunR true 5 (List.map some (List.replicate 5 61 ++ 10 ::
        ([97, 61, 98, 35, 99, 10] ++ [35]))) ≠
        some (SerialResult.transcript [97, 61, 98, 35, 99, 10]) := by
  constructor
  · decide
  · decide

/-- C4 (amended): a start line of exactly four equals signs plus newline
is accepted by the character-oriented variant, but the byte-oriented
variant rejects it with the start-mismatch failure: its first read_until
consumes one equals sign and the regex then requires four more before the
newline, so at least five total are needed there. -/
theorem c4_four_equals (tail : List Nat) (fuel : Nat) :
    serialRunR true fuel (List.map some ([61, 61, 61, 61, 10] ++ tail)) =
        some SerialResult.startMismatch ∧
      cwRun 10 [[61, 61, 61, 61, 10], [], [111, 107, 35, 10]] =
        some [61, 61, 61, 61, 10, 111, 107] := by
  constructor
  · have e0 : List.map some ([61, 61, 61, 61, 10] ++ tail)
        = some 61 :: some 61 :: some 61 :: some 61 :: some 10 :: List.map some tail := by
      simp
    have h1 : readUntil 61
          (some 61 :: some 61 :: some 61 :: some 61 :: some 10 :: List.map some tail)
        = ([61], some 61 :: some 61 :: some 61 :: some 10 :: List.map some tail) := by
      simp [readUntil]
    have h2 : readUntil 10 (some 61 :: some 61 :: some 61 :: some 10 :: List.map some tail)
        = ([61, 61, 61, 10], List.map some tail) := by
      simp [readUntil]
    have h3 : startFullmatch [61, 61, 61, 10] = false := by decide
    unfold serialRunR serialRun
    rw [e0, h1]
    dsimp only
    rw [h2]
    dsimp only
    rw [h3]
    simp
  · decide

/-- C4 counterexample: the byte-oriented variant fails with the
start-mismatch condition on a four-equals start marker instead of
accepting it and returning the payload. -/
theorem c4_counterexample :
    serialRunR true 5 (List.map some ([61, 61, 61, 61, 10] ++ ([111, 107] ++ [35]))) =
        some SerialResult.startMismatch ∧
      some SerialResult.startMismatch ≠ some (SerialResult.transcript [111, 107]) := by
  constructor
  · decide
  · decide

/-- C5 (amended): a transport timeout while streaming does not fail the
session: pyserial read_until returns its partial data without raising, the
loop condition stays unsatisfied, and the reader keeps issuing reads
indefinitely; after a valid start, if no hash byte ever arrives the run
never returns for any number of loop iterations. -/
theorem c5_streaming_timeout_loops (k fuel : Nat) (payload : List Nat)
    (hk : 5 ≤ k) (hn : 35 ∉ payload) :
    serialRunR true fuel (List.map some (List.replicate k 61 ++ 10 :: payload)) = none := by
  obtain ⟨m, rfl⟩ : ∃ m, k = m + 1 := ⟨k - 1, by omega⟩
  exact serialNoStop m fuel payload (by omega) hn

/-- C5 witness: a five-equals start then abc and then silence is still
unterminated after seven loop iterations. -/
theorem c5_witness :
    serialRunR true 7 (List.map some (List.replicate 5 61 ++ 10 :: [97, 98, 99])) = none :=
  c5_streaming_timeout_loops 5 7 [97, 98, 99] (by decide) (by decide)

/-- C5 counterexample: on a stream with a valid start then abc and then
permanent silence, run never propagates any failure to the caller: there
is no iteration bound at which it returns anything at all, contradicting
the claim that a streaming timeout transitions to Failed. -/
theorem c5_counterexample :
    ¬ ∃ (fuel : Nat) (r : SerialResult),
      serialRunR true fuel [some 61, some 61, some 61, some 61, some 61, some 10,
        some 97, some 98, some 99] = some r := by
  rintro ⟨fuel, r, h⟩
  have h2 := serialNoStop 4 fuel [97, 98, 99] (by omega) (by decide)
  have e : List.map some (List.replicate (4 + 1) 61 ++ 10 :: [97, 98, 99])
      = [some 61, some 61, some 61, some 61, some 61, some 10,
          some 97, some 98, some 99] := rfl
  rw [e] at h2
  rw [h2] at h
  exact Option.noConfusion h

/-- C6 (amended): when no equals sign ever arrives, the byte-oriented
variant raises the timeout-waiting-for-start failure (a transport timeout,
not a protocol mismatch); the character-oriented variant however has no
timeout at all: its polling loop never fails and never returns. -/
theorem c6_no_equals (s : List (Option Nat)) (reads : List (List Nat)) (fuel g : Nat)
    (hs : ∀ x ∈ s, x ≠ some 61) (hr : ∀ r ∈ reads, 61 ∉ r) :
    serialRunR true fuel s = some SerialResult.timeoutStart ∧ cwRun g reads = none := by
  constructor
  · have hne : (readUntil 61 s).1 ≠ [61] := by
      intro hcontra
      have hmem : (61 : Nat) ∈ (readUntil 61 s).1 := by rw [hcontra]; simp
      exact hs (some 61) (ruChunkMem 61 s 61 hmem) rfl
    unfold serialRunR serialRun
    rw [if_pos rfl, if_neg hne]
  · have h1 : cwAwaitEq g [] reads = none := cwAwaitEqNone g [] reads (by simp) hr
    unfold cwRun
    rw [h1]

/-- C6 witness: a noise byte then a timeout in the byte variant raises
the timeout failure, and a noise poll in the character variant leaves it
polling. -/
theorem c6_witness :
    serialRunR true 3 [some 110, none] = some SerialResult.timeoutStart ∧
      cwRun 3 [[110], []] = none :=
  c6_no_equals [some 110, none] [[110], []] 3 3 (by decide) (by decide)

/-- C6 counterexample: the character-oriented variant on a silent
transport never fails with any condition at all, in particular not with a
transport timeout: no polling bound makes it return. -/
theorem c6_counterexample : ¬ ∃ (g : Nat) (t : List Nat), cwRun g [] = some t := by
  rintro ⟨g, t, h⟩
  have h1 : cwAwaitEq g [] ([] : List (List Nat)) = none :=
    cwAwaitEqNone g [] [] (by simp) (by simp)
  unfold cwRun at h
  rw [h1] at h
  exact Option.noConfusion h

/-- C7: when the Flasher reports failure (non-zero exit status of the
external tool, modelled as flashOk false), run propagates the flash
failure before any transport interaction: zero read_until calls are
issued and the input buffer is not reset. -/
theorem c7_flash_failure_first (fuel : Nat) (s : List (Option Nat)) :
    serialRun false fuel s = (some SerialResult.flashFailure, 0, false) := rfl

/-- C8: code bug in ChipWhisperer.flash: the open-find-erase-program-close
sequence has no try/finally, so when the erase step raises, the failure
propagates (surfacing as a flash failure) but prog.close() is never
executed: the handle is not closed along the failure path, contradicting
the contract that close runs on every exit path. -/
theorem c8_erase_failure_skips_close :
    cwFlash (fun st => st == FlashStep.eraseP)
      = (Except.error FlashStep.eraseP, false) := rfl

/-- C9 (amended): the byte-oriented reader decodes the stripped buffer
with the utf-8 codec and the ignore error handler: a run whose captured
buffer contains an invalid byte still returns a transcript without
raising, but the invalid byte is silently dropped rather than replaced:
the transcript is the decode of the surrounding valid bytes only. -/
theorem c9_ignore_drops_invalid (k fuel : Nat) (a b : List Nat)
    (hk : 5 ≤ k) (hf : 2 ≤ fuel)
    (ha : ∀ x ∈ a, x < 128) (hb : ∀ x ∈ b, x < 128) (hna : 35 ∉ a) (hnb : 35 ∉ b) :
    serialRunR true fuel
        (List.map some (List.replicate k 61 ++ 10 :: ((a ++ 255 :: b) ++ [35]))) =
      some (SerialResult.transcript (a ++ b)) := by
  obtain ⟨m, rfl⟩ : ∃ m, k = m + 1 := ⟨k - 1, by omega⟩
  obtain ⟨f, rfl⟩ : ∃ f, fuel = f + 1 + 1 := ⟨fuel - 2, by omega⟩
  rw [serialRunFramed m f (a ++ 255 :: b) (by omega)]
  have hn : 35 ∉ a ++ 255 :: b := by
    intro hmem
    rcases List.mem_append.mp hmem with h1 | h1
    · exact hna h1
    · rcases List.mem_cons.mp h1 with h2 | h2
      · exact absurd h2 (by decide)
      · exact hnb h2
  rw [twAll 35 _ hn]
  have hd : decodeUtf8Ignore (a ++ 255 :: b) = a ++ b := by
    unfold decodeUtf8Ignore
    have hl : (a ++ 255 :: b).length = a.length + (b.length + 1) := by simp
    rw [hl, decodeGoPre a (b.length + 1) (255 :: b) ha]
    congr 1
    simp only [decodeUtf8Go]
    rw [show utf8Step 255 b = (none, 0) from rfl]
    show decodeUtf8Go b.length (b.drop 0) = b
    rw [List.drop_zero]
    exact decodeGoAscii b b.length le_rfl hb
  rw [hd]

/-- C9 witness: the captured buffer hi, invalid byte 255, exclamation
mark decodes to hi-exclamation with the invalid byte dropped. -/
theorem c9_witness :
    serialRunR true 2 (List.map some (List.replicate 5 61 ++ 10 ::
        (([104, 105] ++ 255 :: [33]) ++ [35]))) =
      some (SerialResult.transcript ([104, 105] ++ [33])) :=
  c9_ignore_drops_invalid 5 2 [104, 105] [33]
    (by decide) (by decide) (by decide) (by decide) (by decide) (by decide)

/-- C9 counterexample: a buffer with the invalid byte 255 before the
letter a yields the transcript a alone: the invalid byte is dropped
silently and no replacement scalar 65533 appears, contradicting the claim
that each invalid sequence appears as a replacement. -/
theorem c9_counterexample :
    serialRunR true 5 (List.map some [61, 61, 61, 61, 61, 10, 255, 97, 35]) =
        some (SerialResult.transcript [97]) ∧
      (65533 : Nat) ∉ ([97] : List Nat) := by
  constructor
  · decide
  · decide

/-- C10: every transcript successfully returned by the byte-oriented
SerialCommsPlatform.run contains no hash character at all: a hash can
enter the buffer only as the final byte of a read_until chunk, the loop
stops as soon as the buffer ends with one, that byte is stripped, and
decoding hash-free bytes cannot produce the hash scalar. -/
theorem c10_transcript_no_hash (fuel : Nat) (s : List (Option Nat)) (t : List Nat)
    (h : serialRunR true fuel s = some (SerialResult.transcript t)) : 35 ∉ t := by
  obtain ⟨q, hq, ht⟩ := serialRunTranscript fuel s t h
  have h1 : 35 ∉ q.1.dropLast := slInv fuel [] _ 0 q hq (by simp)
  rw [ht]
  exact decodeNoHash _ h1

/-- C10 witness: a concrete successful run whose transcript ab indeed
contains no hash. -/
theorem c10_witness :
    serialRunR true 2 [some 61, some 61, some 61, some 61, some 61, some 10,
        some 97, some 98, some 35] = some (SerialResult.transcript [97, 98]) ∧
      35 ∉ ([97, 98] : List Nat) :=
  ⟨by decide, c10_transcript_no_hash 2 [some 61, some 61, some 61, some 61, some 61, some 10,
    some 97, some 98, some 35] [97, 98] (by decide)⟩

end Pqm4
